import Mathlib

/-!
Verification of the `helix-resume` automatic reflow (wrap-when-typing) engine
(`src/helix-term/src/handlers/wrap_when_typing.rs`) and of the per-file
cursor-position cache (`src/helix-view/src/file_info.rs`).

Text buffers are modelled as `List Char` (Unicode codepoint sequences);
the rope offset API (`char_to_line`, `line_to_char`, `len_lines`,
`len_chars`) is given its standard semantics: a line index is the number
of newline characters before a position, `len_lines` is one more than the
number of newlines, and `line_to_char i` is the first character offset of
line `i`.  A selection is modelled by the list of its ranges' cursor
positions (spec section 3: a range's `cursor()` yields the active edge).
-/

set_option autoImplicit false

namespace HelixResume

/-- Modelled from the spec: `char_is_whitespace` lives in helix-core
(`chars.rs`), which is not under `src/`; the spec only calls it a
whitespace-codepoint test.  Modelled as the ASCII whitespace codepoints. -/
def char_is_whitespace (c : Char) : Bool :=
  c = ' ' || c = '\t' || c = '\n' || c = '\r' || c = '\x0c'

/-- Total character count of the buffer (`Rope::len_chars`). -/
def len_chars (t : List Char) : Nat := t.length

/-- Number of lines of the buffer (`Rope::len_lines`): one more than the
number of newline characters. -/
def len_lines (t : List Char) : Nat := t.count '\n' + 1

/-- Line index containing character position `pos` (`Rope::char_to_line`):
the number of newlines strictly before `pos`. -/
def char_to_line (t : List Char) (pos : Nat) : Nat := (t.take pos).count '\n'

/-- First character offset of line `i` (`Rope::line_to_char`): the offset
just after the `i`-th newline (equal to `len_chars` past the last line). -/
def line_to_char : List Char → Nat → Nat
  | _, 0 => 0
  | [], _ + 1 => 0
  | c :: rest, i + 1 => 1 + line_to_char rest (if c = '\n' then i else i + 1)

/-- End offset of line `line_idx`, excluding the trailing newline except on
the buffer's final line (`wrap_when_typing.rs` lines 35-39). -/
def line_end (t : List Char) (line_idx : Nat) : Nat :=
  if line_idx = len_lines t - 1 then len_chars t
  else line_to_char t (line_idx + 1) - 1

/-- The textual content of line `i`: the slice `[line_to_char i, line_end i)`
(`wrap_when_typing.rs` lines 41-42). -/
def line_of (t : List Char) (i : Nat) : List Char :=
  (t.drop (line_to_char t i)).take (line_end t i - line_to_char t i)

/-- The boundary-search loop of `wrap_when_typing.rs` lines 47-62: scan the
line left to right; `idx` is the codepoint index of the current character
(so the running `char_count` of the source is `idx + 1`), `lastB` is
`last_space_before_width` so far.  A whitespace character with
`char_count ≤ text_width` updates `lastB`; the first whitespace character
with `char_count > text_width` stops the scan as `first_space_after_width`.
Byte indices of the source are represented by codepoint indices, which is
what `line_str[..space_idx].chars().count()` converts them to on line 76. -/
def scan_line (width : Nat) : List Char → Nat → Option Nat → Option Nat × Option Nat
  | [], _, lastB => (lastB, none)
  | c :: rest, idx, lastB =>
    if char_is_whitespace c then
      if idx + 1 ≤ width then
        scan_line width rest (idx + 1) (some idx)
      else
        (lastB, some idx)
    else
      scan_line width rest (idx + 1) lastB

/-- The Boundary Locator (`wrap_when_typing.rs` lines 47-71): run the scan
from index 0 with no whitespace seen, then prefer `last_space_before_width`
and fall back to `first_space_after_width` (lines 65-71). -/
def locate (line : List Char) (width : Nat) : Option Nat :=
  match (scan_line width line 0 none).1 with
  | some j => some j
  | none => (scan_line width line 0 none).2

/-- The whitespace-skipping loop of `wrap_when_typing.rs` lines 79-86,
indexed by the remaining fuel `stop - p` (the loop advances `p` by one
while `p < stop` and the character at `p` is whitespace); the character
read happens only under the `p < stop` guard, mirroring the source where
`text.char(next_char_pos)` is evaluated after the bound check. -/
def skip_ws_go (t : List Char) (stop : Nat) : Nat → Nat → Nat
  | 0, p => p
  | fuel + 1, p =>
    if p < stop then
      if char_is_whitespace (t.getD p 'a') then skip_ws_go t stop fuel (p + 1)
      else p
    else p

/-- `skip_ws t start stop` is the value of `next_char_pos` after the loop of
`wrap_when_typing.rs` lines 79-86, started at `start` and bounded by `stop`. -/
def skip_ws (t : List Char) (start stop : Nat) : Nat :=
  skip_ws_go t stop (stop - start) start

/-- Per-range processing of the collection pass (`wrap_when_typing.rs`
lines 31-91): locate the cursor's line, skip it unless its codepoint count
exceeds `width` (and `width > 0`), otherwise run the Boundary Locator and,
when a break point is found, emit the wrap request
`(break_pos, next_char_pos)` with the trailing-whitespace skip. -/
def process_range (t : List Char) (width : Nat) (cursor_pos : Nat) : Option (Nat × Nat) :=
  if (line_of t (char_to_line t cursor_pos)).length > width ∧ 0 < width then
    match locate (line_of t (char_to_line t cursor_pos)) width with
    | some space_idx =>
      some (line_to_char t (char_to_line t cursor_pos) + space_idx,
        skip_ws t (line_to_char t (char_to_line t cursor_pos) + space_idx + 1)
          (line_end t (char_to_line t cursor_pos)))
    | none => none
  else
    none

/-- The Wrap-Set Collector (`wrap_when_typing.rs` lines 25-92): one pass over
the selection's cursors against the single pre-edit snapshot `t`. -/
def collect (t : List Char) (width : Nat) (cursors : List Nat) : List (Nat × Nat) :=
  cursors.filterMap (process_range t width)

/-- One buffer edit (`wrap_when_typing.rs` lines 112-119): replace the span
`[b, n)` with a newline followed by the indentation string `ind`. -/
def apply_edit (t : List Char) (b n : Nat) (ind : List Char) : List Char :=
  t.take b ++ '\n' :: (ind ++ t.drop n)

/-- The application loop (`wrap_when_typing.rs` lines 95-120): the wrap
positions collected against the pre-edit snapshot are applied one at a
time, re-reading the buffer text (`oracle` receives the current text and
`break_pos`, standing for the external `indent::indent_for_newline` call)
but reusing the collected offsets unchanged. -/
def apply_all (oracle : List Char → Nat → List Char) : List Char → List (Nat × Nat) → List Char
  | t, [] => t
  | t, (b, n) :: rest => apply_all oracle (apply_edit t b n (oracle t b)) rest

/-- The whole `PostInsertChar` hook (`wrap_when_typing.rs` lines 9-123):
a no-op returning `Ok` when `wrap_when_typing` is disabled, otherwise
collect-then-apply; every path returns `Ok`. -/
def run_hook (enabled : Bool) (width : Nat) (oracle : List Char → Nat → List Char)
    (t : List Char) (cursors : List Nat) : Except Unit (List Char) :=
  if enabled then .ok (apply_all oracle t (collect t width cursors))
  else .ok t

/-- Modelled from the spec: the standard "map position through this edit"
semantics of the buffer mutation primitive (spec section 4.4: positions
before the edit are unchanged, positions at or after the edit shift by the
edit's length delta); the primitive itself is helix-core code not under
`src/`. -/
def map_pos (efrom eto repl_len pos : Nat) : Nat :=
  if pos < efrom then pos else pos + repl_len - (eto - efrom)

instance : DecidableEq (Except Unit (List Char)) := fun a b =>
  match a, b with
  | .ok x, .ok y =>
    if h : x = y then isTrue (by rw [h]) else isFalse (fun hc => by cases hc; exact h rfl)
  | .ok _, .error _ => isFalse (fun hc => by cases hc)
  | .error _, .ok _ => isFalse (fun hc => by cases hc)
  | .error x, .error y => isTrue (by cases x; cases y; rfl)


/-- A saved cursor position, as stored by the `fileinfo` table of
`file_info.rs` (`line`, `column`; the `last_modified` timestamp is kept
alongside in the store). -/
structure FilePosition where
  line : Nat
  column : Nat
  deriving DecidableEq

/-- The `fileinfo` SQLite table of `file_info.rs` (lines 53-61), modelled as
an association list from the `filepath` TEXT primary key to the stored
`(line, column)` pair and `last_modified` timestamp. -/
abbrev Store := List (String × FilePosition × Int)

/-- The effect of `INSERT OR REPLACE INTO fileinfo` (`file_info.rs`
lines 91-95): the row keyed `key` is replaced, all other rows are kept. -/
def insert_or_replace (s : Store) (key : String) (pos : FilePosition) (ts : Int) : Store :=
  (key, pos, ts) :: s.filter (fun r => !(r.1 == key))

/-- `SELECT line, column FROM fileinfo WHERE filepath = ?1` (`file_info.rs`
lines 122-137): the row keyed `key`, if any. -/
def store_lookup (s : Store) (key : String) : Option (FilePosition × Int) :=
  match s.find? (fun r => r.1 == key) with
  | some r => some r.2
  | none => none

/-- The `FileInfoDb` struct of `file_info.rs` (lines 7-10): an optional
connection (the backing store) and the enable flag. -/
structure FileInfoDb where
  conn : Option Store
  enabled : Bool

/-- `FileInfoDb::save_position` (`file_info.rs` lines 66-100).  `canon`
models `Path::canonicalize` (an external filesystem call): `none` means
canonicalization fails, in which case `unwrap_or_else` falls back to the
original path (line 72).  `now` models the wall-clock timestamp; the
cursor's `(line, column)` pair (computed by external helix-core
`coords_at_pos`) is passed in as `pos`.  The SQL execute is modelled as
infallible, so every path returns `Ok`. -/
def save_position (canon : String → Option String) (now : Int) (db : FileInfoDb)
    (path : String) (pos : FilePosition) : Except String FileInfoDb :=
  if !db.enabled || db.conn.isNone then .ok db
  else
    let filepath := match canon path with
      | some p => p
      | none => path
    match db.conn with
    | some s => .ok { db with conn := some (insert_or_replace s filepath pos now) }
    | none => .ok db

/-- `FileInfoDb::load_position` (`file_info.rs` lines 102-149): `None` when
disabled; `None` when canonicalization fails, *before* the store is
consulted; otherwise look the canonical path up in the store. -/
def load_position (canon : String → Option String) (db : FileInfoDb)
    (path : String) : Option FilePosition :=
  if !db.enabled then none
  else
    match canon path with
    | none => none
    | some c =>
      match db.conn with
      | none => none
      | some s =>
        match store_lookup s c with
        | some r => some r.1
        | none => none

end HelixResume

namespace HelixResume

/-! ### Rope-API lemmas -/

theorem line_to_char_le (t : List Char) : ∀ i, line_to_char t i ≤ t.length := by
  induction t with
  | nil => intro i; cases i <;> simp [line_to_char]
  | cons c rest ih =>
    intro i
    cases i with
    | zero => simp [line_to_char]
    | succ n =>
      simp only [line_to_char, List.length_cons]
      have h := ih (if c = '\n' then n else n + 1)
      omega

theorem char_to_line_le_count (t : List Char) (pos : Nat) :
    char_to_line t pos ≤ t.count '\n' :=
  List.Sublist.count_le (List.take_sublist pos t) '\n'

theorem line_end_le (t : List Char) (i : Nat) : line_end t i ≤ t.length := by
  unfold line_end len_chars
  split
  · exact Nat.le_refl _
  · have h := line_to_char_le t (i + 1)
    omega

theorem line_to_char_lt_succ (t : List Char) :
    ∀ i, i < t.count '\n' → line_to_char t i < line_to_char t (i + 1) := by
  induction t with
  | nil => intro i h; simp at h
  | cons c rest ih =>
    intro i h
    cases i with
    | zero =>
      simp only [line_to_char]
      omega
    | succ n =>
      simp only [line_to_char]
      by_cases hc : c = '\n'
      · simp only [if_pos hc]
        have hcnt : rest.count '\n' + 1 = (c :: rest).count '\n' := by
          simp [List.count_cons, hc]
        have hih := ih n (by omega)
        omega
      · simp only [if_neg hc]
        have hcnt : rest.count '\n' = (c :: rest).count '\n' := by
          simp [List.count_cons, hc]
        have hih := ih (n + 1) (by omega)
        omega

theorem line_of_length_le (t : List Char) (i : Nat) :
    (line_of t i).length ≤ line_end t i - line_to_char t i := by
  unfold line_of
  exact List.length_take_le _ _

/-! ### Whitespace-skip loop lemmas -/

theorem skip_ws_go_ge (t : List Char) (stop : Nat) :
    ∀ fuel p, p ≤ skip_ws_go t stop fuel p := by
  intro fuel
  induction fuel with
  | zero => intro p; exact Nat.le_refl _
  | succ n ih =>
    intro p
    simp only [skip_ws_go]
    split
    · split
      · exact Nat.le_trans (Nat.le_succ p) (ih (p + 1))
      · exact Nat.le_refl _
    · exact Nat.le_refl _

theorem skip_ws_go_le_stop (t : List Char) (stop : Nat) :
    ∀ fuel p, p ≤ stop → skip_ws_go t stop fuel p ≤ stop := by
  intro fuel
  induction fuel with
  | zero => intro p h; exact h
  | succ n ih =>
    intro p h
    simp only [skip_ws_go]
    split
    · split
      · exact ih (p + 1) (by omega)
      · exact h
    · exact h

theorem skip_ws_go_ws_run (t : List Char) (stop : Nat) :
    ∀ fuel p q, p ≤ q → q < skip_ws_go t stop fuel p →
      q < stop ∧ char_is_whitespace (t.getD q 'a') = true := by
  intro fuel
  induction fuel with
  | zero =>
    intro p q hpq hq
    simp only [skip_ws_go] at hq
    omega
  | succ n ih =>
    intro p q hpq hq
    simp only [skip_ws_go] at hq
    by_cases hps : p < stop
    · rw [if_pos hps] at hq
      by_cases hws : char_is_whitespace (t.getD p 'a') = true
      · rw [if_pos hws] at hq
        rcases Nat.eq_or_lt_of_le hpq with heq | hlt
        · exact heq ▸ ⟨hps, hws⟩
        · exact ih (p + 1) q hlt hq
      · rw [if_neg hws] at hq
        omega
    · rw [if_neg hps] at hq
      omega

theorem skip_ws_go_terminal (t : List Char) (stop : Nat) :
    ∀ fuel p, stop ≤ p + fuel → p ≤ stop →
      skip_ws_go t stop fuel p = stop ∨
        char_is_whitespace (t.getD (skip_ws_go t stop fuel p) 'a') = false := by
  intro fuel
  induction fuel with
  | zero =>
    intro p h1 h2
    simp only [skip_ws_go]
    omega
  | succ n ih =>
    intro p h1 h2
    simp only [skip_ws_go]
    by_cases hps : p < stop
    · rw [if_pos hps]
      by_cases hws : char_is_whitespace (t.getD p 'a') = true
      · rw [if_pos hws]
        exact ih (p + 1) (by omega) (by omega)
      · rw [if_neg hws]
        right
        exact Bool.not_eq_true _ ▸ (by simpa using hws)
    · rw [if_neg hps]
      left
      omega

end HelixResume

namespace HelixResume

/-! ### Boundary-locator scan lemmas -/

theorem scan_no_ws (width : Nat) :
    ∀ (l : List Char) (idx : Nat) (lb : Option Nat),
      (∀ k, k < l.length → char_is_whitespace (l.getD k 'a') = false) →
      scan_line width l idx lb = (lb, none) := by
  intro l
  induction l with
  | nil => intro idx lb _; rfl
  | cons c rest ih =>
    intro idx lb h
    have h0 := h 0 (by simp)
    simp only [List.getD_cons_zero] at h0
    simp only [scan_line, h0, Bool.false_eq_true, if_false]
    exact ih (idx + 1) lb fun k hk => by
      have hx := h (k + 1) (by simpa using Nat.succ_lt_succ hk)
      simpa using hx

theorem scan_fst_of_no_ws_below (width : Nat) :
    ∀ (l : List Char) (idx : Nat) (lb : Option Nat),
      (∀ k, k < l.length → idx + k < width → char_is_whitespace (l.getD k 'a') = false) →
      (scan_line width l idx lb).1 = lb := by
  intro l
  induction l with
  | nil => intro idx lb _; rfl
  | cons c rest ih =>
    intro idx lb h
    simp only [scan_line]
    by_cases hw : char_is_whitespace c = true
    · rw [if_pos hw]
      by_cases hiw : idx + 1 ≤ width
      · exfalso
        have h0 := h 0 (by simp) (by omega)
        simp only [List.getD_cons_zero] at h0
        rw [hw] at h0
        cases h0
      · rw [if_neg hiw]
    · rw [if_neg hw]
      exact ih (idx + 1) lb fun k hk hkw => by
        have hx := h (k + 1) (by simpa using Nat.succ_lt_succ hk) (by omega)
        simpa using hx

theorem scan_fst_some (width : Nat) :
    ∀ (l : List Char) (idx j : Nat),
      ∃ r, (scan_line width l idx (some j)).1 = some r := by
  intro l
  induction l with
  | nil => intro idx j; exact ⟨j, rfl⟩
  | cons c rest ih =>
    intro idx j
    simp only [scan_line]
    by_cases hw : char_is_whitespace c = true
    · rw [if_pos hw]
      by_cases hiw : idx + 1 ≤ width
      · rw [if_pos hiw]
        exact ih (idx + 1) idx
      · rw [if_neg hiw]
        exact ⟨j, rfl⟩
    · rw [if_neg hw]
      exact ih (idx + 1) j

theorem scan_fst_sound (width : Nat) :
    ∀ (l : List Char) (idx : Nat) (lb : Option Nat) (j : Nat),
      (scan_line width l idx lb).1 = some j →
      lb = some j ∨
        ∃ k, k < l.length ∧ j = idx + k ∧
          char_is_whitespace (l.getD k 'a') = true ∧ idx + k < width := by
  intro l
  induction l with
  | nil => intro idx lb j h; exact Or.inl h
  | cons c rest ih =>
    intro idx lb j h
    simp only [scan_line] at h
    by_cases hw : char_is_whitespace c = true
    · rw [if_pos hw] at h
      by_cases hiw : idx + 1 ≤ width
      · rw [if_pos hiw] at h
        rcases ih (idx + 1) (some idx) j h with hl | ⟨k, hk, hj, hws, hkw⟩
        · right
          refine ⟨0, by simp, ?_, by simpa using hw, by omega⟩
          cases hl
          omega
        · right
          exact ⟨k + 1, by simpa using Nat.succ_lt_succ hk, by omega,
            by simpa using hws, by omega⟩
      · rw [if_neg hiw] at h
        exact Or.inl h
    · rw [if_neg hw] at h
      rcases ih (idx + 1) lb j h with hl | ⟨k, hk, hj, hws, hkw⟩
      · exact Or.inl hl
      · right
        exact ⟨k + 1, by simpa using Nat.succ_lt_succ hk, by omega,
          by simpa using hws, by omega⟩

theorem scan_snd_sound (width : Nat) :
    ∀ (l : List Char) (idx : Nat) (lb : Option Nat) (j : Nat),
      (scan_line width l idx lb).2 = some j →
      ∃ k, k < l.length ∧ j = idx + k ∧ char_is_whitespace (l.getD k 'a') = true := by
  intro l
  induction l with
  | nil => intro idx lb j h; cases h
  | cons c rest ih =>
    intro idx lb j h
    simp only [scan_line] at h
    by_cases hw : char_is_whitespace c = true
    · rw [if_pos hw] at h
      by_cases hiw : idx + 1 ≤ width
      · rw [if_pos hiw] at h
        obtain ⟨k, hk, hj, hws⟩ := ih (idx + 1) (some idx) j h
        exact ⟨k + 1, by simpa using Nat.succ_lt_succ hk, by omega, by simpa using hws⟩
      · rw [if_neg hiw] at h
        cases h
        exact ⟨0, by simp, by omega, by simpa using hw⟩
    · rw [if_neg hw] at h
      obtain ⟨k, hk, hj, hws⟩ := ih (idx + 1) lb j h
      exact ⟨k + 1, by simpa using Nat.succ_lt_succ hk, by omega, by simpa using hws⟩

end HelixResume

namespace HelixResume

theorem scan_fst_last (width : Nat) :
    ∀ (l : List Char) (idx : Nat) (lb : Option Nat),
      (∃ k, k < l.length ∧ idx + k < width ∧ char_is_whitespace (l.getD k 'a') = true) →
      ∃ k, k < l.length ∧ idx + k < width ∧ char_is_whitespace (l.getD k 'a') = true ∧
        (scan_line width l idx lb).1 = some (idx + k) ∧
        ∀ m, m < l.length → idx + m < width →
          char_is_whitespace (l.getD m 'a') = true → m ≤ k := by
  intro l
  induction l with
  | nil =>
    intro idx lb h
    obtain ⟨k, hk, -, -⟩ := h
    simp at hk
  | cons c rest ih =>
    intro idx lb hex
    obtain ⟨k, hk, hkw, hws⟩ := hex
    by_cases hw : char_is_whitespace c = true
    · have hidx : idx < width := by
        cases k with
        | zero => omega
        | succ n => omega
      have hstep : scan_line width (c :: rest) idx lb =
          scan_line width rest (idx + 1) (some idx) := by
        simp only [scan_line, if_pos hw, if_pos (by omega : idx + 1 ≤ width)]
      by_cases hex2 : ∃ k2, k2 < rest.length ∧ idx + 1 + k2 < width ∧
          char_is_whitespace (rest.getD k2 'a') = true
      · obtain ⟨k2, hk2, hk2w, hws2, hfst, hmax⟩ := ih (idx + 1) (some idx) hex2
        refine ⟨k2 + 1, by simpa using Nat.succ_lt_succ hk2, by omega,
          by simpa using hws2, ?_, ?_⟩
        · rw [hstep, hfst]
          congr 1
          omega
        · intro m hm hmw hmws
          cases m with
          | zero => omega
          | succ n =>
            have := hmax n (by simpa using hm) (by omega) (by simpa using hmws)
            omega
      · have hnone : ∀ k2, k2 < rest.length → idx + 1 + k2 < width →
            char_is_whitespace (rest.getD k2 'a') = false := by
          intro k2 h1 h2
          by_cases hb : char_is_whitespace (rest.getD k2 'a') = true
          · exact absurd ⟨k2, h1, h2, hb⟩ hex2
          · simpa using hb
        refine ⟨0, by simp, by omega, by simpa using hw, ?_, ?_⟩
        · rw [hstep, scan_fst_of_no_ws_below width rest (idx + 1) (some idx) hnone]
          congr 1
        · intro m hm hmw hmws
          cases m with
          | zero => exact Nat.le_refl 0
          | succ n =>
            exfalso
            have := hnone n (by simpa using hm) (by omega)
            rw [List.getD_cons_succ] at hmws
            rw [hmws] at this
            cases this
    · have hk0 : k ≠ 0 := by
        intro h0
        rw [h0, List.getD_cons_zero] at hws
        exact hw hws
      obtain ⟨n, rfl⟩ : ∃ n, k = n + 1 := ⟨k - 1, by omega⟩
      have hstep : scan_line width (c :: rest) idx lb =
          scan_line width rest (idx + 1) lb := by
        simp only [scan_line, if_neg hw]
      obtain ⟨k2, hk2, hk2w, hws2, hfst, hmax⟩ := ih (idx + 1) lb
        ⟨n, by simpa using hk, by omega, by simpa using hws⟩
      refine ⟨k2 + 1, by simpa using Nat.succ_lt_succ hk2, by omega,
        by simpa using hws2, ?_, ?_⟩
      · rw [hstep, hfst]
        congr 1
        omega
      · intro m hm hmw hmws
        cases m with
        | zero =>
          exfalso
          rw [List.getD_cons_zero] at hmws
          exact hw hmws
        | succ n2 =>
          have := hmax n2 (by simpa using hm) (by omega) (by simpa using hmws)
          omega

theorem scan_snd_first (width : Nat) :
    ∀ (l : List Char) (idx : Nat) (lb : Option Nat),
      (∀ k, k < l.length → idx + k < width → char_is_whitespace (l.getD k 'a') = false) →
      (∃ k, k < l.length ∧ char_is_whitespace (l.getD k 'a') = true) →
      ∃ k, k < l.length ∧ char_is_whitespace (l.getD k 'a') = true ∧ width ≤ idx + k ∧
        (scan_line width l idx lb).2 = some (idx + k) ∧
        ∀ m, m < k → char_is_whitespace (l.getD m 'a') = false := by
  intro l
  induction l with
  | nil =>
    intro idx lb _ hex
    obtain ⟨k, hk, -⟩ := hex
    simp at hk
  | cons c rest ih =>
    intro idx lb hno hex
    by_cases hw : char_is_whitespace c = true
    · have hge : width ≤ idx := by
        by_contra hlt
        have := hno 0 (by simp) (by omega)
        rw [List.getD_cons_zero, hw] at this
        cases this
      refine ⟨0, by simp, by simpa using hw, by omega, ?_, by omega⟩
      simp only [scan_line, if_pos hw, if_neg (by omega : ¬ idx + 1 ≤ width)]
      congr 1
    · have hstep : scan_line width (c :: rest) idx lb =
          scan_line width rest (idx + 1) lb := by
        simp only [scan_line, if_neg hw]
      obtain ⟨k, hk, hws⟩ := hex
      have hk0 : k ≠ 0 := by
        intro h0
        rw [h0, List.getD_cons_zero] at hws
        exact hw hws
      obtain ⟨n, rfl⟩ : ∃ n, k = n + 1 := ⟨k - 1, by omega⟩
      obtain ⟨k2, hk2, hws2, hk2w, hsnd, hmin⟩ := ih (idx + 1) lb
        (fun k2 h1 h2 => by
          have hx := hno (k2 + 1) (by simpa using Nat.succ_lt_succ h1) (by omega)
          simpa using hx)
        ⟨n, by simpa using hk, by simpa using hws⟩
      refine ⟨k2 + 1, by simpa using Nat.succ_lt_succ hk2, by simpa using hws2,
        by omega, ?_, ?_⟩
      · rw [hstep, hsnd]
        congr 1
        omega
      · intro m hm
        cases m with
        | zero => simpa using hw
        | succ n2 =>
          have := hmin n2 (by omega)
          simpa using this

theorem scan_none_snd (width : Nat) :
    ∀ (l : List Char) (idx j : Nat),
      (scan_line width l idx none).1 = none →
      (scan_line width l idx none).2 = some j →
      ∃ k, j = idx + k ∧ k < l.length ∧ char_is_whitespace (l.getD k 'a') = true ∧
        ∀ m, m < k → char_is_whitespace (l.getD m 'a') = false := by
  intro l
  induction l with
  | nil => intro idx j _ h2; cases h2
  | cons c rest ih =>
    intro idx j h1 h2
    by_cases hw : char_is_whitespace c = true
    · by_cases hiw : idx + 1 ≤ width
      · exfalso
        have hstep : scan_line width (c :: rest) idx none =
            scan_line width rest (idx + 1) (some idx) := by
          simp only [scan_line, if_pos hw, if_pos hiw]
        rw [hstep] at h1
        obtain ⟨r, hr⟩ := scan_fst_some width rest (idx + 1) idx
        rw [hr] at h1
        cases h1
      · have hstep : scan_line width (c :: rest) idx none = (none, some idx) := by
          simp only [scan_line, if_pos hw, if_neg hiw]
        rw [hstep] at h2
        cases h2
        exact ⟨0, by omega, by simp, by simpa using hw, by omega⟩
    · have hstep : scan_line width (c :: rest) idx none =
          scan_line width rest (idx + 1) none := by
        simp only [scan_line, if_neg hw]
      rw [hstep] at h1 h2
      obtain ⟨k, hj, hk, hws, hmin⟩ := ih (idx + 1) j h1 h2
      refine ⟨k + 1, by omega, by simpa using Nat.succ_lt_succ hk, by simpa using hws, ?_⟩
      intro m hm
      cases m with
      | zero => simpa using hw
      | succ n =>
        have := hmin n (by omega)
        simpa using this

end HelixResume

namespace HelixResume

/-! ### Boundary-locator characterizations -/

theorem locate_none_of_no_ws (l : List Char) (width : Nat)
    (h : ∀ k, k < l.length → char_is_whitespace (l.getD k 'a') = false) :
    locate l width = none := by
  unfold locate
  rw [scan_no_ws width l 0 none h]

theorem locate_sound (l : List Char) (width : Nat) (j : Nat)
    (h : locate l width = some j) :
    j < l.length ∧ char_is_whitespace (l.getD j 'a') = true := by
  unfold locate at h
  cases h1 : (scan_line width l 0 none).1 with
  | some j2 =>
    rw [h1] at h
    simp only [Option.some.injEq] at h
    subst h
    rcases scan_fst_sound width l 0 none j2 h1 with hl | ⟨k, hk, hj, hws, -⟩
    · cases hl
    · exact ⟨by omega, by rw [show j2 = k by omega]; exact hws⟩
  | none =>
    rw [h1] at h
    simp only [] at h
    obtain ⟨k, hk, hj, hws⟩ := scan_snd_sound width l 0 none j h
    exact ⟨by omega, by rw [show j = k by omega]; exact hws⟩

theorem locate_lt_width_or_no_ws (l : List Char) (width : Nat) (j : Nat)
    (h : locate l width = some j) :
    j < width ∨ ∀ m, m < j → char_is_whitespace (l.getD m 'a') = false := by
  unfold locate at h
  cases h1 : (scan_line width l 0 none).1 with
  | some j2 =>
    rw [h1] at h
    simp only [Option.some.injEq] at h
    subst h
    rcases scan_fst_sound width l 0 none j2 h1 with hl | ⟨k, hk, hj, hws, hkw⟩
    · cases hl
    · left
      omega
  | none =>
    rw [h1] at h
    simp only [] at h
    obtain ⟨k, hj, hk, hws, hmin⟩ := scan_none_snd width l 0 j h1 h
    right
    intro m hm
    exact hmin m (by omega)

end HelixResume

namespace HelixResume

/-! ### Claim theorems -/

/-- C2 (word-boundary preference): for every line whose codepoint count
exceeds `width` and which contains a whitespace codepoint among its first
`width` codepoints (codepoint position `≤ width` in the spec's 1-based
position count), the Boundary Locator chooses the *last* such whitespace —
never an earlier one and never one past the limit. -/
theorem wrap_break_at_last_whitespace_before_limit (l : List Char) (width : Nat)
    (hover : width < l.length)
    (hex : ∃ k, k < l.length ∧ k < width ∧ char_is_whitespace (l.getD k 'a') = true) :
    ∃ k, locate l width = some k ∧ k < l.length ∧ k < width ∧
      char_is_whitespace (l.getD k 'a') = true ∧
      ∀ m, m < l.length → m < width → char_is_whitespace (l.getD m 'a') = true → m ≤ k := by
  obtain ⟨k, hk, hkw, hws, hfst, hmax⟩ := scan_fst_last width l 0 none
    (by obtain ⟨k, h1, h2, h3⟩ := hex; exact ⟨k, h1, by omega, h3⟩)
  refine ⟨k, ?_, hk, by omega, hws, fun m h1 h2 h3 => hmax m h1 (by omega) h3⟩
  unfold locate
  rw [hfst]
  simp

/-- Witness for C2 at the spec's own section-8 example: width 20,
line `"the quick brown fox jumps"`, break at index 19. -/
theorem wrap_break_at_last_whitespace_before_limit_witness :
    ∃ k, locate ("the quick brown fox jumps".data) 20 = some k ∧
      k < ("the quick brown fox jumps".data).length ∧ k < 20 ∧
      char_is_whitespace (("the quick brown fox jumps".data).getD k 'a') = true ∧
      ∀ m, m < ("the quick brown fox jumps".data).length → m < 20 →
        char_is_whitespace (("the quick brown fox jumps".data).getD m 'a') = true →
          m ≤ k :=
  wrap_break_at_last_whitespace_before_limit _ 20 (by decide) ⟨19, by decide⟩

/-- C4 counterexample: width 5, line `"aaaaa bbbbbb"` (12 codepoints, first
whitespace at codepoint index 5, i.e. 1-based position 6, strictly past the
limit).  The code breaks there, but the resulting first segment has exactly
5 = `width_limit` codepoints — it does *not* exceed the limit as the claim
states. -/
theorem overflow_fallback_segment_cex :
    5 < ("aaaaa bbbbbb".data).length ∧
    (∀ k, k < 5 → char_is_whitespace (("aaaaa bbbbbb".data).getD k 'a') = false) ∧
    char_is_whitespace (("aaaaa bbbbbb".data).getD 5 'a') = true ∧
    locate ("aaaaa bbbbbb".data) 5 = some 5 ∧
    ¬ 5 < (("aaaaa bbbbbb".data).take 5).length := by decide

/-- C4 as amended: for every over-width line with no whitespace among its
first `width` codepoints but some whitespace later, the break point is the
first whitespace strictly after the limit, and the resulting first segment
has codepoint count *at least* `width` (not necessarily strictly more). -/
theorem overflow_fallback_first_whitespace (l : List Char) (width : Nat)
    (hover : width < l.length)
    (hno : ∀ k, k < l.length → k < width → char_is_whitespace (l.getD k 'a') = false)
    (hex : ∃ k, k < l.length ∧ char_is_whitespace (l.getD k 'a') = true) :
    ∃ k, locate l width = some k ∧ char_is_whitespace (l.getD k 'a') = true ∧
      width ≤ k ∧ (∀ m, m < k → char_is_whitespace (l.getD m 'a') = false) ∧
      (l.take k).length = k ∧ width ≤ (l.take k).length := by
  obtain ⟨k, hk, hws, hkw, hsnd, hmin⟩ := scan_snd_first width l 0 none
    (fun k2 h1 h2 => hno k2 h1 (by omega)) hex
  have hfst : (scan_line width l 0 none).1 = none :=
    scan_fst_of_no_ws_below width l 0 none (fun k2 h1 h2 => hno k2 h1 (by omega))
  refine ⟨k, ?_, hws, by omega, hmin, ?_, ?_⟩
  · unfold locate
    rw [hfst]
    simpa using hsnd
  · rw [List.length_take]
    omega
  · rw [List.length_take]
    omega

/-- Witness for the amended C4 at the spec's section-8 example: width 5,
line `"superlongword next"`, first whitespace at index 13. -/
theorem overflow_fallback_first_whitespace_witness :
    ∃ k, locate ("superlongword next".data) 5 = some k ∧
      char_is_whitespace (("superlongword next".data).getD k 'a') = true ∧
      5 ≤ k ∧
      (∀ m, m < k → char_is_whitespace (("superlongword next".data).getD m 'a') = false) ∧
      (("superlongword next".data).take k).length = k ∧
      5 ≤ (("superlongword next".data).take k).length :=
  overflow_fallback_first_whitespace _ 5 (by decide) (by decide) ⟨13, by decide⟩

end HelixResume

namespace HelixResume

theorem process_range_none_of_short (t : List Char) (width : Nat) (c : Nat)
    (h : (line_of t (char_to_line t c)).length ≤ width) :
    process_range t width c = none := by
  unfold process_range
  rw [if_neg]
  intro hc
  omega

theorem process_range_eq_some (t : List Char) (width : Nat) (c b n : Nat)
    (h : process_range t width c = some (b, n)) :
    ∃ j, locate (line_of t (char_to_line t c)) width = some j ∧
      b = line_to_char t (char_to_line t c) + j ∧
      n = skip_ws t (b + 1) (line_end t (char_to_line t c)) ∧
      width < (line_of t (char_to_line t c)).length ∧ 0 < width := by
  unfold process_range at h
  by_cases hc : (line_of t (char_to_line t c)).length > width ∧ 0 < width
  · rw [if_pos hc] at h
    cases hl : locate (line_of t (char_to_line t c)) width with
    | some j =>
      rw [hl] at h
      simp only [Option.some.injEq, Prod.mk.injEq] at h
      exact ⟨j, rfl, h.1.symm, by rw [← h.1, ← h.2], hc.1, hc.2⟩
    | none =>
      rw [hl] at h
      cases h
  · rw [if_neg hc] at h
    cases h

/-- C5 (threshold): a cursor whose line's codepoint count is at most
`width` contributes no wrap request: per-range processing yields `none`,
the collector emits nothing for it, and running the hook on that cursor
alone leaves the buffer unchanged (and returns success). -/
theorem threshold_no_edit (t : List Char) (width : Nat) (c : Nat) (cs : List Nat)
    (oracle : List Char → Nat → List Char)
    (h : (line_of t (char_to_line t c)).length ≤ width) :
    process_range t width c = none ∧
    collect t width (c :: cs) = collect t width cs ∧
    run_hook true width oracle t [c] = .ok t := by
  have h1 := process_range_none_of_short t width c h
  refine ⟨h1, ?_, ?_⟩
  · simp [collect, h1]
  · simp [run_hook, collect, h1, apply_all]

/-- Witness for C5: width 10, buffer `"ab cd"` (5 codepoints), cursor 0. -/
theorem threshold_no_edit_witness :
    process_range ("ab cd".data) 10 0 = none ∧
    collect ("ab cd".data) 10 (0 :: [3]) = collect ("ab cd".data) 10 [3] ∧
    run_hook true 10 (fun _ _ => []) ("ab cd".data) [0] = .ok ("ab cd".data) :=
  threshold_no_edit _ 10 0 [3] (fun _ _ => []) (by decide)

/-- C6 (no whitespace): an over-width line with no whitespace codepoint at
all yields no break point from the Boundary Locator, no wrap request for
that range, the collector simply moves on to the remaining ranges, and the
buffer is left unmodified (the hook still returns success, not an error). -/
theorem no_whitespace_line_untouched (t : List Char) (width : Nat) (c : Nat)
    (cs : List Nat) (oracle : List Char → Nat → List Char)
    (hover : width < (line_of t (char_to_line t c)).length)
    (hno : ∀ k, k < (line_of t (char_to_line t c)).length →
      char_is_whitespace ((line_of t (char_to_line t c)).getD k 'a') = false) :
    locate (line_of t (char_to_line t c)) width = none ∧
    process_range t width c = none ∧
    collect t width (c :: cs) = collect t width cs ∧
    run_hook true width oracle t [c] = .ok t := by
  have hl := locate_none_of_no_ws _ width hno
  have hp : process_range t width c = none := by
    unfold process_range
    by_cases hc : (line_of t (char_to_line t c)).length > width ∧ 0 < width
    · rw [if_pos hc, hl]
    · rw [if_neg hc]
  refine ⟨hl, hp, ?_, ?_⟩
  · simp [collect, hp]
  · simp [run_hook, collect, hp, apply_all]

/-- Witness for C6: width 2, buffer `"abcd"` (one over-width line with no
whitespace), cursor 0 plus a second cursor 1. -/
theorem no_whitespace_line_untouched_witness :
    locate (line_of ("abcd".data) (char_to_line ("abcd".data) 0)) 2 = none ∧
    process_range ("abcd".data) 2 0 = none ∧
    collect ("abcd".data) 2 (0 :: [1]) = collect ("abcd".data) 2 [1] ∧
    run_hook true 2 (fun _ _ => []) ("abcd".data) [0] = .ok ("abcd".data) :=
  no_whitespace_line_untouched _ 2 0 [1] (fun _ _ => []) (by decide) (by decide)

/-- C7 (wrap-request invariant and whitespace collapse): every emitted wrap
request `(b, n)` satisfies `b < n ≤ line_end`; every character strictly
between `b` and `n` is whitespace (the run after the break is consumed),
and `n` is either `line_end` or the first non-whitespace position after
`b`. -/
theorem wrap_request_invariant (t : List Char) (width : Nat) (c b n : Nat)
    (h : process_range t width c = some (b, n)) :
    b < n ∧ n ≤ line_end t (char_to_line t c) ∧
    (∀ q, b < q → q < n → char_is_whitespace (t.getD q 'a') = true) ∧
    (n = line_end t (char_to_line t c) ∨ char_is_whitespace (t.getD n 'a') = false) := by
  obtain ⟨j, hl, hb, hn, hlen, hw⟩ := process_range_eq_some t width c b n h
  have hj := (locate_sound _ width j hl).1
  have hline := line_of_length_le t (char_to_line t c)
  have hble : b + 1 ≤ line_end t (char_to_line t c) := by omega
  have hskip : n = skip_ws_go t (line_end t (char_to_line t c))
      (line_end t (char_to_line t c) - (b + 1)) (b + 1) := hn
  refine ⟨?_, ?_, ?_, ?_⟩
  · have := skip_ws_go_ge t (line_end t (char_to_line t c))
      (line_end t (char_to_line t c) - (b + 1)) (b + 1)
    omega
  · rw [hskip]
    exact skip_ws_go_le_stop t _ _ (b + 1) hble
  · intro q hq1 hq2
    rw [hskip] at hq2
    exact (skip_ws_go_ws_run t _ _ (b + 1) q (by omega) hq2).2
  · rw [hskip]
    exact skip_ws_go_terminal t _ _ (b + 1) (by omega) hble

/-- Witness for C7: width 3, buffer `"aaaa b"`, cursor 0: the emitted
request is `(4, 5)` with `line_end = 6`. -/
theorem wrap_request_invariant_witness :
    4 < 5 ∧ 5 ≤ line_end ("aaaa b".data) (char_to_line ("aaaa b".data) 0) ∧
    (∀ q, 4 < q → q < 5 → char_is_whitespace (("aaaa b".data).getD q 'a') = true) ∧
    (5 = line_end ("aaaa b".data) (char_to_line ("aaaa b".data) 0) ∨
      char_is_whitespace (("aaaa b".data).getD 5 'a') = false) :=
  wrap_request_invariant ("aaaa b".data) 3 0 4 5 (by decide)

/-- C8 (disabled or zero width): with the feature flag off, or with
`width_limit = 0`, the hook performs no buffer edit and returns success. -/
theorem disabled_or_zero_width_noop (width : Nat) (oracle : List Char → Nat → List Char)
    (t : List Char) (cursors : List Nat) :
    run_hook false width oracle t cursors = .ok t ∧
    run_hook true 0 oracle t cursors = .ok t := by
  constructor
  · simp [run_hook]
  · have hz : ∀ c, process_range t 0 c = none := by
      intro c
      unfold process_range
      rw [if_neg]
      intro hc
      omega
    have hcol : collect t 0 cursors = [] := by
      induction cursors with
      | nil => rfl
      | cons a as iha => simpa [collect, hz a] using iha
    simp [run_hook, hcol, apply_all]

/-- C9 (in-bounds character access): `line_end` never exceeds the buffer's
total character count, so a scan position checked against `line_end` (as
the whitespace-skip loop does before every read) is a valid character
index. -/
theorem skip_scan_in_bounds (t : List Char) (c p : Nat)
    (hp : p < line_end t (char_to_line t c)) :
    line_end t (char_to_line t c) ≤ len_chars t ∧ p < len_chars t := by
  have h := line_end_le t (char_to_line t c)
  unfold len_chars
  exact ⟨h, by omega⟩

/-- Witness for C9: buffer `"ab\ncd"`, cursor 3 (line 1, `line_end = 5`),
scan position 4. -/
theorem skip_scan_in_bounds_witness :
    line_end ("ab\ncd".data) (char_to_line ("ab\ncd".data) 3) ≤ len_chars ("ab\ncd".data) ∧
    4 < len_chars ("ab\ncd".data) :=
  skip_scan_in_bounds ("ab\ncd".data) 3 4 (by decide)

end HelixResume

namespace HelixResume

/-- C3 counterexample: width 5, buffer `"aa bb cc dd"` (one 11-codepoint
line), cursor 10.  The first pass wraps at the request `(2, 3)` giving
`"aa\nbb cc dd"`; the cursor remaps to 10 unchanged (the edit is
length-neutral); the second pass still collects the request `(5, 6)` —
the continuation line `"bb cc dd"` is still over-width — so re-running the
pipeline is not a no-op. -/
theorem wrap_not_idempotent_cex :
    run_hook true 5 (fun _ _ => []) ("aa bb cc dd".data) [10] =
      .ok ("aa\nbb cc dd".data) ∧
    collect ("aa bb cc dd".data) 5 [10] = [(2, 3)] ∧
    map_pos 2 3 1 10 = 10 ∧
    collect ("aa\nbb cc dd".data) 5 [10] = [(5, 6)] ∧
    run_hook true 5 (fun _ _ => []) ("aa\nbb cc dd".data) [10] ≠
      .ok ("aa\nbb cc dd".data) := by decide

/-- C3 as amended: full idempotence fails (the continuation line may still
exceed the width limit, as the counterexample shows), but the *first
segment* produced by any wrap is stable: for a break point `j` chosen by
the Boundary Locator, re-running per-range processing on the segment
before the break yields no further edit — that segment either has fewer
than `width` codepoints or contains no whitespace at all. -/
theorem wrap_first_segment_stable (l : List Char) (width : Nat) (j c : Nat)
    (hl : locate l width = some j) (hc : c ≤ j) :
    process_range (l.take j) width c = none := by
  rcases locate_lt_width_or_no_ws l width j hl with hlt | hno
  · apply process_range_none_of_short
    have h1 := line_of_length_le (l.take j) (char_to_line (l.take j) c)
    have h2 := line_end_le (l.take j) (char_to_line (l.take j) c)
    have h3 : (l.take j).length ≤ j := by
      rw [List.length_take]
      omega
    omega
  · have hseg : ∀ k, k < (line_of (l.take j) (char_to_line (l.take j) c)).length →
        char_is_whitespace
          ((line_of (l.take j) (char_to_line (l.take j) c)).getD k 'a') = false := by
      intro k hk
      rw [List.getD_eq_getElem _ 'a' hk]
      have hmem2 : (line_of (l.take j) (char_to_line (l.take j) c)).get ⟨k, hk⟩ ∈
          l.take j := by
        have hmem : (line_of (l.take j) (char_to_line (l.take j) c)).get ⟨k, hk⟩ ∈
            line_of (l.take j) (char_to_line (l.take j) c) :=
          List.mem_iff_getElem.mpr ⟨k, hk, rfl⟩
        unfold line_of at hmem
        exact List.mem_of_mem_drop (List.mem_of_mem_take hmem)
      obtain ⟨i, hi, hieq⟩ := List.mem_iff_getElem.mp hmem2
      have hij : i < j := by
        rw [List.length_take] at hi
        omega
      have hil : i < l.length := by
        rw [List.length_take] at hi
        omega
      have hnoi := hno i hij
      rw [List.getD_eq_getElem _ 'a' hil] at hnoi
      simp only [List.get_eq_getElem] at hieq
      rw [List.getElem_take] at hieq
      rw [← hieq]
      exact hnoi
    have hloc := locate_none_of_no_ws _ width hseg
    unfold process_range
    by_cases hcnd : (line_of (l.take j) (char_to_line (l.take j) c)).length > width ∧
        0 < width
    · rw [if_pos hcnd, hloc]
    · rw [if_neg hcnd]

/-- Witness for the amended C3: width 3, line `"aaaa b"`, break point 4
(overflow fallback); the first segment `"aaaa"` triggers no further wrap. -/
theorem wrap_first_segment_stable_witness :
    process_range (("aaaa b".data).take 4) 3 0 = none :=
  wrap_first_segment_stable ("aaaa b".data) 3 4 0 (by decide) (by decide)

/-- C1: the application loop reuses the offsets collected against the
pre-edit snapshot.  Buffer `"aaa  bb\nccc dd"`, width 3, cursors 0 and 8
(two different over-width lines), empty indentation: the first edit
replaces the two-space run `[3, 5)` by a single newline (length delta
`-1`), after which the stale second request `(11, 12)` no longer points at
line 2's space — the hook produces `"aaa\nbb\nccc \nd"` (the space kept, a
`d` deleted) instead of wrapping line 2 correctly, as the single-cursor
run on `"ccc dd"` alone would (`"ccc\ndd"`). -/
theorem wrap_multicursor_stale_offsets :
    run_hook true 3 (fun _ _ => []) ("aaa  bb\nccc dd".data) [0, 8] =
      .ok ("aaa\nbb\nccc \nd".data) ∧
    run_hook true 3 (fun _ _ => []) ("ccc dd".data) [0] = .ok ("ccc\ndd".data) ∧
    ("aaa\nbb\nccc \nd".data) ≠ ("aaa\nbb\nccc\ndd".data) := by decide

/-- C10 (save/load canonicalization asymmetry): when canonicalization of a
path fails, `save_position` still succeeds and keys the record under the
original path, while `load_position` returns `None` before consulting the
store — for *any* store state — so such a record can never be loaded back;
and with the feature disabled, `save_position` returns `Ok` without
writing and `load_position` returns `None`. -/
theorem save_load_canonicalization_asymmetry
    (canon : String → Option String) (now : Int) (s : Store) (path : String)
    (pos : FilePosition) (db2 dbd : FileInfoDb)
    (h : canon path = none) (hd : dbd.enabled = false) :
    save_position canon now ⟨some s, true⟩ path pos =
      .ok ⟨some (insert_or_replace s path pos now), true⟩ ∧
    load_position canon db2 path = none ∧
    save_position canon now dbd path pos = .ok dbd ∧
    load_position canon dbd path = none := by
  refine ⟨?_, ?_, ?_, ?_⟩
  · simp [save_position, h]
  · unfold load_position
    by_cases he : db2.enabled
    · simp [he, h]
    · simp [he]
  · unfold save_position
    rw [if_pos]
    rw [hd]
    rfl
  · unfold load_position
    rw [if_pos]
    rw [hd]
    rfl

/-- Witness for C10: the always-failing canonicalizer, an empty enabled
store, an unrelated populated store, and a disabled database. -/
theorem save_load_canonicalization_asymmetry_witness :
    save_position (fun _ => none) 0 ⟨some [], true⟩ "f" ⟨1, 2⟩ =
      .ok ⟨some (insert_or_replace [] "f" ⟨1, 2⟩ 0), true⟩ ∧
    load_position (fun _ => none) ⟨some [("g", ⟨3, 4⟩, 5)], true⟩ "f" = none ∧
    save_position (fun _ => none) 0 ⟨some [], false⟩ "f" ⟨1, 2⟩ = .ok ⟨some [], false⟩ ∧
    load_position (fun _ => none) ⟨some [], false⟩ "f" = none :=
  save_load_canonicalization_asymmetry (fun _ => none) 0 [] "f" ⟨1, 2⟩
    ⟨some [("g", ⟨3, 4⟩, 5)], true⟩ ⟨some [], false⟩ rfl rfl

end HelixResume
